import Mathlib

/-!
Verification development for the search-enrich-report pipeline
(`search_agent`): URL shortener, Google search client with enrichment,
HTML content extraction, page fetching with retry, and the LLM agent's
report synthesis with its URL consistency pass.

Strings are modelled as `List Char` (`Str`) so that the Python string
operations used by the code (`in`, `replace`, `re.findall`, slicing,
`re.sub(r'\s+', ' ', ...)`, `.strip()`) can be given executable,
structurally recursive definitions that the kernel can evaluate.

External collaborators (the TinyURL endpoint, the network, hashlib.md5,
BeautifulSoup parsing, the completion provider) are modelled as explicit
oracle parameters; everything written in the repository itself is
translated directly.
-/

/-- Python strings, modelled as lists of characters. -/
abbrev Str := List Char

/-- `a` is a prefix of `b` (executable; mirrors `str.startswith` /
pattern position tests). -/
def isPreB : Str → Str → Bool
  | [], _ => true
  | _ :: _, [] => false
  | a :: as, b :: bs => a = b && isPreB as bs

/-- `a` is a suffix of `b` (executable). -/
def isSufB (a b : Str) : Bool :=
  isPreB a.reverse b.reverse

/-- Python's substring test `pat in s`. -/
def containsSub (pat : Str) : Str → Bool
  | [] => isPreB pat []
  | c :: t => isPreB pat (c :: t) || containsSub pat t

/-- Fuelled worker for `replaceAll`; fuel `s.length` suffices. -/
def replaceAllF (pat rep : Str) : Nat → Str → Str
  | 0, s => s
  | _ + 1, [] => []
  | f + 1, c :: t =>
    if pat ≠ [] ∧ isPreB pat (c :: t) = true then
      rep ++ replaceAllF pat rep f ((c :: t).drop pat.length)
    else
      c :: replaceAllF pat rep f t

/-- Python's `s.replace(pat, rep)`: replace all non-overlapping
occurrences, scanning left to right. (For `pat = []` Python would
intersperse `rep`; that case never arises here because every pattern
handed to `replace` by the agent is a nonempty regex match, and we keep
`s` unchanged instead.) -/
def replaceAll (pat rep s : Str) : Str :=
  replaceAllF pat rep s.length s

/-- Character class `[^\s)\]"\']` of the agent's URL regex: everything
except whitespace, `)`, `]`, double quote and single quote. -/
def urlTokenChar (c : Char) : Bool :=
  !(c.isWhitespace || c = ')' || c = ']' || c = '"' || c = '\'')

/-- Try to match the regex `https?://[^\s)\]"\']+` at the start of `s`;
returns the match and the remainder after it. -/
def matchUrlAt (s : Str) : Option (Str × Str) :=
  if isPreB ("https://".data) s then
    let rest := s.drop 8
    let run := rest.takeWhile urlTokenChar
    if run = [] then none else some ("https://".data ++ run, rest.drop run.length)
  else if isPreB ("http://".data) s then
    let rest := s.drop 7
    let run := rest.takeWhile urlTokenChar
    if run = [] then none else some ("http://".data ++ run, rest.drop run.length)
  else none

/-- Fuelled worker for `findUrls`; fuel `s.length` suffices. -/
def findUrlsF : Nat → Str → List Str
  | 0, _ => []
  | _ + 1, [] => []
  | f + 1, c :: t =>
    match matchUrlAt (c :: t) with
    | some (m, after) => m :: findUrlsF f after
    | none => findUrlsF f t

/-- `re.findall(r'https?://[^\s)\]"\']+', s)`: all URL-shaped matches,
left to right, non-overlapping, each maximal. -/
def findUrls (s : Str) : List Str :=
  findUrlsF s.length s

/-- Fuelled worker collapsing whitespace runs into single spaces. -/
def squashWsF : Nat → Str → Str
  | 0, s => s
  | _ + 1, [] => []
  | f + 1, c :: t =>
    if c.isWhitespace then ' ' :: squashWsF f (t.dropWhile Char.isWhitespace)
    else c :: squashWsF f t

/-- `re.sub(r'\s+', ' ', s)`. (`Char.isWhitespace` models the `\s`
class for the whitespace characters that actually occur here.) -/
def squashWs (s : Str) : Str :=
  squashWsF s.length s

/-- Python's `s.strip()`. -/
def stripWs (s : Str) : Str :=
  ((s.dropWhile Char.isWhitespace).reverse.dropWhile Char.isWhitespace).reverse

/-- `re.sub(r'\s+', ' ', s).strip()` — the whitespace normalisation both
extractors apply before truncation. -/
def collapseWs (s : Str) : Str :=
  stripWs (squashWs s)

/-- Python's `max(x :: l, key)`: first element with maximal key. -/
def pyMax (key : α → Nat) (x : α) (l : List α) : α :=
  l.foldl (fun best e => if key best < key e then e else best) x

/-- Python's `' '.join l`. -/
def joinSpace : List Str → Str
  | [] => []
  | [x] => x
  | x :: y :: xs => x ++ ' ' :: joinSpace (y :: xs)

/-- Python's `'\n\n'.join l` (used by the agent's fallback report). -/
def joinPara : List Str → Str
  | [] => []
  | [x] => x
  | x :: y :: xs => x ++ ("\n\n".data) ++ joinPara (y :: xs)

/-- Lookup in a Python dict modelled as an association list. -/
def dictLookup (m : List (Str × Str)) (k : Str) : Option Str :=
  match m with
  | [] => none
  | (k', v) :: rest => if k' = k then some v else dictLookup rest k

/-- `m[k] = v` on a Python dict: update in place if the key exists,
append otherwise (insertion order preserved). -/
def dictInsert (m : List (Str × Str)) (k v : Str) : List (Str × Str) :=
  match m with
  | [] => [(k, v)]
  | (k', v') :: rest =>
    if k' = k then (k', v) :: rest else (k', v') :: dictInsert rest k v

/-! ## URL shortener (`tools/url_shortener.py`)

`UrlShortener.shorten` first consults the per-instance cache
`short_urls_cache`; on a miss and with `use_external_api = True` it calls
the TinyURL endpoint (modelled by the oracle `ext`, consumed at the index
`n` — the number of external calls the process has made so far; `none`
models a timeout / non-200 / exception, `some t` a 200 response with body
`t`, where an empty body is falsy in Python and also falls back).
Otherwise it derives `https://short.url/<first 8 hex chars of md5(url)>`
locally; `md5hex` models `hashlib.md5(...).hexdigest()`. -/

/-- `UrlShortener._shorten_locally`. -/
def shorten_locally (md5hex : Str → Str) (u : Str) : Str :=
  ("https://short.url/".data) ++ (md5hex u).take 8

/-- `UrlShortener.shorten`, returning the short URL, the updated cache,
and the updated count of external calls made by the process. -/
def shorten (md5hex : Str → Str) (ext : Nat → Option Str) (useExt : Bool)
    (cache : List (Str × Str)) (n : Nat) (u : Str) : Str × List (Str × Str) × Nat :=
  match dictLookup cache u with
  | some s => (s, cache, n)
  | none =>
    if useExt then
      match ext n with
      | some t =>
        if t ≠ [] then (t, dictInsert cache u t, n + 1)
        else
          (shorten_locally md5hex u, dictInsert cache u (shorten_locally md5hex u), n + 1)
      | none =>
        (shorten_locally md5hex u, dictInsert cache u (shorten_locally md5hex u), n + 1)
    else
      (shorten_locally md5hex u, dictInsert cache u (shorten_locally md5hex u), n)

/-! ## Content extraction (`GoogleSearchTool._clean_html_content`, search.py)

BeautifulSoup is external; a parsed page (after the `decompose()` pass
that removes script/style/meta/noscript/header/footer/nav/aside) is
modelled as a flat list of elements in document order, each carrying its
tag, its CSS classes, and its two visible-text renderings used by the
code: `get_text(strip=True)` (`stripText`, used for lengths and as the
paragraph/join text) and `get_text(separator=' ', strip=True)`
(`sepText`, used as the selected content). `soupSepText` is
`soup.get_text(separator=' ', strip=True)`, the whole page's visible
text. `parse` oracles model `BeautifulSoup(html, 'html.parser')`
together with any exception raised inside the `try` block (`none`). -/

structure Element where
  tag : Str
  classes : List Str
  stripText : Str
  sepText : Str
deriving DecidableEq

structure Doc where
  elements : List Element
  soupSepText : Str
deriving DecidableEq

/-- `soup.select(tagName)` for a plain tag selector. -/
def selectTag (doc : Doc) (t : Str) : List Element :=
  doc.elements.filter (fun e => e.tag = t)

/-- `soup.select("tag.cls")` for a tag-with-class selector. -/
def selectTagClass (doc : Doc) (t cls : Str) : List Element :=
  doc.elements.filter (fun e => e.tag = t ∧ cls ∈ e.classes)

/-- The candidate containers collected by search.py's extractor, in the
order of `['article', 'main', 'div.content', 'div.article', 'div.post']`
— note that `'body'` is NOT in this list (unlike summarizer.py's). -/
def potential_content_elements (doc : Doc) : List Element :=
  selectTag doc ("article".data) ++ selectTag doc ("main".data) ++
  selectTagClass doc ("div".data) ("content".data) ++
  selectTagClass doc ("div".data) ("article".data) ++
  selectTagClass doc ("div".data) ("post".data)

/-- `soup.find_all('p')`. -/
def findParagraphs (doc : Doc) : List Element :=
  doc.elements.filter (fun e => e.tag = ("p".data))

/-- The raw `main_content` string chosen by search.py's extractor before
length limiting: the longest candidate container if any exist, else the
joined paragraphs, else the whole page text. -/
def mainContentRaw (doc : Doc) : Str :=
  match potential_content_elements doc with
  | e :: es => (pyMax (fun x => x.stripText.length) e es).sepText
  | [] =>
    match findParagraphs doc with
    | [] => doc.soupSepText
    | p :: ps => joinSpace ((p :: ps).map (fun x => x.stripText))

/-- The truncation marker `"...(內容過長，已截斷)"`. -/
def truncMarker : Str :=
  "...(內容過長，已截斷)".data

/-- search.py's length limiting: whitespace-collapse, slice to
`max_content_length = 10000`, and append the marker whenever the sliced
text has length exactly 10000 (`if len(main_content) == self.max_content_length`). -/
def limitContent (s : Str) : Str :=
  let t := (collapseWs s).take 10000
  if t.length = 10000 then t ++ truncMarker else t

/-- summarizer.py's corrected length limiting (`_clean_html`): the marker
is appended only `if len(main_content) < original_length`, i.e. only when
slicing actually shortened the text. -/
def limitContentSummarizer (s : Str) : Str :=
  let col := collapseWs s
  let t := col.take 10000
  if t.length < col.length then t ++ truncMarker else t

/-- The "no meaningful content" sentinel of `_clean_html_content`. -/
def unavailSentinel : Str :=
  "無法從此頁面提取有意義的內容".data

/-- The `except` sentinel of `_clean_html_content`. -/
def errorSentinel : Str :=
  "內容處理錯誤".data

/-- `_clean_html_content` applied to an already-parsed page. -/
def cleanFromDoc (doc : Doc) : Str :=
  let mc := mainContentRaw doc
  if mc ≠ [] then limitContent mc else unavailSentinel

/-- `GoogleSearchTool._clean_html_content`: parse (the oracle `parse`
returns `none` when BeautifulSoup processing raises, matching the
surrounding `try/except`), then extract and limit. -/
def clean_html_content (parse : Str → Option Doc) (html : Str) : Str :=
  match parse html with
  | some doc => cleanFromDoc doc
  | none => errorSentinel

/-- Definition following the SPEC's words for the Content Extractor
(§4.3), for comparison with `clean_html_content` above: candidate
containers include "finally the whole body as last resort"; candidates
whose visible text is shorter than the ≈100-character threshold are
filtered out; among the remainder the single element with the longest
visible text is selected; otherwise paragraphs, then the full page's
visible text; whitespace collapsed; truncated with a marker only if
truncation actually shortened the text. -/
def specExtract (doc : Doc) : Str :=
  let cands := (potential_content_elements doc ++ selectTag doc ("body".data)).filter
    (fun e => 100 ≤ e.stripText.length)
  match cands with
  | e :: es => limitContentSummarizer (pyMax (fun x => x.stripText.length) e es).sepText
  | [] =>
    match findParagraphs doc with
    | [] => limitContentSummarizer doc.soupSepText
    | p :: ps => limitContentSummarizer (joinSpace ((p :: ps).map (fun x => x.stripText)))

/-! ## Page fetching (`GoogleSearchTool.get_page_content`, search.py)

Each network attempt is an element of `FetchOutcome`:
`resp status content` models `client.get` returning a response whose
(already decoded) text is `content` — decoding never fails because the
code falls back to `decode('utf-8', errors='replace')`;
`transportErr` models `client.get` (or `raise_for_status`) raising
`httpx.HTTPError`; `otherErr` models any other exception (e.g.
`httpx.InvalidURL`), caught by the final `except Exception`.
`raise_for_status` itself raises `httpx.HTTPStatusError` (a subclass of
`httpx.HTTPError`) exactly when the status is not a 2xx success, which
the enclosing `except httpx.HTTPError` turns into a retry. -/

inductive FetchOutcome where
  | resp (status : Nat) (content : Str)
  | transportErr
  | otherErr
deriving DecidableEq

/-- Which outcomes send the loop into its retry path. -/
def retryable : FetchOutcome → Bool
  | .resp st _ => !(200 ≤ st && st < 300)
  | .transportErr => true
  | .otherErr => false

/-- The retry loop of `get_page_content`. `fuel + 1` is the number of
attempts still allowed (the code allows `max_retries = 2` retries, 3
total); `idx` indexes the attempt stream. Returns the result, the number
of attempts consumed, and the number of `asyncio.sleep(1)` calls. -/
def getPageLoop (attempts : Nat → FetchOutcome) : Nat → Nat → Option Str × Nat × Nat
  | 0, _ => (none, 0, 0)
  | fuel + 1, idx =>
    match attempts idx with
    | .resp st c =>
      if 400 ≤ st ∧ st < 600 then
        if 0 < fuel then
          let r := getPageLoop attempts fuel (idx + 1)
          (r.1, r.2.1 + 1, r.2.2 + 1)
        else (none, 1, 0)
      else if ¬(200 ≤ st ∧ st < 300) then
        if 0 < fuel then
          let r := getPageLoop attempts fuel (idx + 1)
          (r.1, r.2.1 + 1, r.2.2 + 1)
        else (none, 1, 0)
      else (some c, 1, 0)
    | .transportErr =>
      if 0 < fuel then
        let r := getPageLoop attempts fuel (idx + 1)
        (r.1, r.2.1 + 1, r.2.2 + 1)
      else (none, 1, 0)
    | .otherErr => (none, 1, 0)

/-- `GoogleSearchTool.get_page_content`: up to 3 attempts over the
outcome stream; result plus attempt and sleep counts. -/
def get_page_content (attempts : Nat → FetchOutcome) : Option Str × Nat × Nat :=
  getPageLoop attempts 3 0

/-! ## Search and enrichment (`GoogleSearchTool.search` /
`_enrich_search_results`, search.py)

A Google API item is modelled by the four strings the code extracts
(`item.get("title","")`, `item.get("link","")`, `item.get("snippet","")`
and the `pagemap → metatags → article:published_time` chain). The API
call itself is external: `apiResp = none` models `httpx.HTTPError`
(caught, returning `[]`), `some none` a JSON body without an `"items"`
key, and `some (some items)` a body with items. -/

structure Item where
  title : Str
  link : Str
  snippet : Str
  published_date : Str
deriving DecidableEq

/-- One formatted search result dict. `short_link = none` models a dict
without the key (possible for candidates built elsewhere; `search`
always fills it). -/
structure Cand where
  title : Str
  link : Str
  short_link : Option Str
  snippet : Str
  source : Str
  published_date : Str
  full_content : Option Str
deriving DecidableEq

/-- Python truthiness of an optional string (`if full_content:` /
`if not short_url:`): `None` and the empty string are falsy. -/
def truthyOptStr : Option Str → Bool
  | some s => !s.isEmpty
  | none => false

/-- The per-item formatting loop of `search`: shorten the link through
the tool's `UrlShortener` (threading its cache and the external-call
count) and build the result dict with `source = "google"`. -/
def formatItems (md5hex : Str → Str) (ext : Nat → Option Str)
    (cache : List (Str × Str)) (n : Nat) :
    List Item → List Cand × List (Str × Str) × Nat
  | [] => ([], cache, n)
  | it :: rest =>
    let r := shorten md5hex ext true cache n it.link
    let c : Cand :=
      { title := it.title, link := it.link, short_link := some r.1,
        snippet := it.snippet, source := "google".data,
        published_date := it.published_date, full_content := none }
    let rs := formatItems md5hex ext r.2.1 r.2.2 rest
    (c :: rs.1, rs.2.1, rs.2.2)

/-- One step of `_enrich_search_results`: fetch the page (the oracle
`fetch` gives the result of `get_page_content` for a URL), and only a
truthy (non-`None`, nonempty) content is cleaned and attached as
`full_content`; otherwise the result dict is copied unchanged. -/
def enrichOne (fetch : Str → Option Str) (parse : Str → Option Doc) (c : Cand) : Cand :=
  match fetch c.link with
  | some content =>
    if content ≠ [] then
      { c with full_content := some (clean_html_content parse content) }
    else c
  | none => c

/-- `GoogleSearchTool._enrich_search_results`: only the first
`max_urls_to_crawl = 5` results are fetched (sequentially); the rest are
appended unchanged. Also returns the number of `get_page_content`
calls made. -/
def enrich_search_results (fetch : Str → Option Str) (parse : Str → Option Doc)
    (search_results : List Cand) : List Cand × Nat :=
  ((search_results.take 5).map (enrichOne fetch parse) ++ search_results.drop 5,
   (search_results.take 5).length)

/-- `GoogleSearchTool.search` (query / `num ≤ 10` / sort parameters are
forwarded to the external API and do not influence the result shape, so
they are absorbed into `apiResp`). Returns the result list, the
updated shortener cache and external-call count. -/
def search (md5hex : Str → Str) (ext : Nat → Option Str)
    (fetch : Str → Option Str) (parse : Str → Option Doc) (deep_search : Bool)
    (apiResp : Option (Option (List Item))) (cache : List (Str × Str)) (n : Nat) :
    List Cand × List (Str × Str) × Nat :=
  match apiResp with
  | none => ([], cache, n)
  | some none => ([], cache, n)
  | some (some items) =>
    let fr := formatItems md5hex ext cache n items
    if deep_search then
      ((enrich_search_results fetch parse fr.1).1, fr.2.1, fr.2.2)
    else
      (fr.1, fr.2.1, fr.2.2)

/-! ## Report synthesis (`LLMAgent._generate_comprehensive_report` /
`process_query`, agent.py)

The agent owns a SECOND `UrlShortener` instance (`LLMAgent.__init__`,
line 24), separate from the search tool's; its cache is threaded as
`agentCache`. The completion provider is external: `narrative = some rep`
models a successful completion with text `rep`, `none` models the
`except` path that produces the fallback bullet report. -/

/-- The per-result part of the context loop (agent.py lines 161-172):
ensure the result has a truthy short URL — MUTATING the result dict when
it does not — and record `url_map[original_url] = short_url`. Returns
the (possibly updated) result, the short URL, and the updated agent
shortener cache / external-call count. -/
def prepassOne (md5hex : Str → Str) (ext : Nat → Option Str)
    (ac : List (Str × Str)) (n : Nat) (c : Cand) :
    Cand × Str × List (Str × Str) × Nat :=
  if truthyOptStr c.short_link then
    (c, c.short_link.getD [], ac, n)
  else
    let r := shorten md5hex ext true ac n c.link
    ({ c with short_link := some r.1 }, r.1, r.2.1, r.2.2)

/-- The whole context loop: processes the results in order, building
`url_map` by dict insertion (insertion order preserved). Returns the
post-loop results list, the URL map, and the updated agent cache and
external-call count. -/
def prepass (md5hex : Str → Str) (ext : Nat → Option Str) :
    List (Str × Str) → List (Str × Str) → Nat → List Cand →
    List Cand × List (Str × Str) × List (Str × Str) × Nat
  | um, ac, n, [] => ([], um, ac, n)
  | um, ac, n, c :: cs =>
    let r := prepassOne md5hex ext ac n c
    let rest := prepass md5hex ext (dictInsert um c.link r.2.1) r.2.2.1 r.2.2.2 cs
    (r.1 :: rest.1, rest.2)

/-- One iteration of the consistency pass (agent.py lines 239-250) for a
URL-shaped match `m`: a key of `url_map` is replaced by its mapped short
form; a string equal to one of the map's short values is left alone;
anything else is shortened through the agent's `UrlShortener` (which
never raises, so the `except: pass` guard is dead) and replaced. -/
def passOne (md5hex : Str → Str) (ext : Nat → Option Str)
    (urlMap : List (Str × Str)) (ac : List (Str × Str)) (n : Nat)
    (report : Str) (m : Str) : Str × List (Str × Str) × Nat :=
  match dictLookup urlMap m with
  | some s => (replaceAll m s report, ac, n)
  | none =>
    if m ∈ urlMap.map Prod.snd then (report, ac, n)
    else
      let r := shorten md5hex ext true ac n m
      (replaceAll m r.1 report, r.2.1, r.2.2)

/-- The consistency pass: `re.findall` once over the narrative, then the
sequential replacement loop over the matches. -/
def consistencyPass (md5hex : Str → Str) (ext : Nat → Option Str)
    (urlMap : List (Str × Str)) (ac : List (Str × Str)) (n : Nat)
    (report : Str) : Str × List (Str × Str) × Nat :=
  (findUrls report).foldl
    (fun acc m => passOne md5hex ext urlMap acc.2.1 acc.2.2 acc.1 m)
    (report, ac, n)

/-- The fallback bullet report built in the `except` branch: top 3
results as `- title: short-or-long URL` lines. -/
def fallbackReport (rs : List Cand) : Str :=
  ("在生成報告過程中遇到技術問題。以下是搜尋到的基本資訊:\n\n".data) ++
  joinPara ((rs.take 3).map
    (fun r => ("- ".data) ++ r.title ++ (": ".data) ++
      (match r.short_link with
       | some s => s
       | none => r.link)))

/-- `LLMAgent._generate_comprehensive_report`: context/URL-map loop,
then either the completion's narrative run through the consistency pass,
or the fallback bullet list. Returns the report text, the post-call
results list (the loop may have mutated it), and the updated agent
shortener cache and external-call count. -/
def generate_comprehensive_report (md5hex : Str → Str) (ext : Nat → Option Str)
    (ac : List (Str × Str)) (n : Nat) (search_results : List Cand)
    (narrative : Option Str) :
    Str × List Cand × List (Str × Str) × Nat :=
  let pre := prepass md5hex ext [] ac n search_results
  match narrative with
  | some rep =>
    let fin := consistencyPass md5hex ext pre.2.1 pre.2.2.1 pre.2.2.2 rep
    (fin.1, pre.1, fin.2.1, fin.2.2)
  | none =>
    (fallbackReport pre.1, pre.1, pre.2.1, pre.2.2.2)

/-- The outcome of `LLMAgent._analyze_query` (external completion plus
fallback): the search string actually used and the result count. -/
structure Analysis where
  search_query : Str
  max_results : Nat
deriving DecidableEq

/-- The response dict of `LLMAgent.process_query` (`type` is spelled
`rtype` because `type` is reserved in Lean). -/
structure AgentResponse where
  rtype : Str
  query : Str
  search_query : Str
  answer : Str
  used_tools : List Str
  raw_results : Option (List Cand)
deriving DecidableEq

/-- `LLMAgent.process_query` from the point where the query analysis is
available: search (with `deep_search=True`), then either the
`no_results` response or the full report response (whose `raw_results`
is the — possibly mutated — results list). -/
def process_query (md5hex : Str → Str) (ext : Nat → Option Str)
    (fetch : Str → Option Str) (parse : Str → Option Doc)
    (analysis : Analysis) (apiResp : Option (Option (List Item)))
    (narrative : Option Str) (searchCache agentCache : List (Str × Str))
    (n : Nat) (user_query : Str) : AgentResponse :=
  let sr := search md5hex ext fetch parse true apiResp searchCache n
  if sr.1 = [] then
    { rtype := "no_results".data, query := user_query,
      search_query := analysis.search_query,
      answer := ("很抱歉，我找不到關於「".data) ++ analysis.search_query ++
        ("」的相關資訊。請嘗試使用其他關鍵字或更明確的描述。".data),
      used_tools := ["search".data], raw_results := none }
  else
    let rep := generate_comprehensive_report md5hex ext agentCache sr.2.2 sr.1 narrative
    { rtype := "search_and_report".data, query := user_query,
      search_query := analysis.search_query, answer := rep.1,
      used_tools := ["search".data, "analyze".data],
      raw_results := some rep.2.1 }

/-! ## The two shortener instances of the process

`GoogleSearchTool.__init__` (search.py line 24) and `LLMAgent.__init__`
(agent.py line 24) each construct their own `UrlShortener
(use_external_api=True)`; the process therefore holds two independent
caches while sharing the external endpoint (one call stream). -/

structure PipeState where
  searchCache : List (Str × Str)
  agentCache : List (Str × Str)
  extCount : Nat
deriving DecidableEq

inductive Component where
  | searchTool
  | agent
deriving DecidableEq

/-- A `shorten` call routed to one of the two live `UrlShortener`
instances of the process. -/
def pipeShorten (md5hex : Str → Str) (ext : Nat → Option Str)
    (st : PipeState) : Component → Str → Str × PipeState
  | .searchTool, u =>
    let r := shorten md5hex ext true st.searchCache st.extCount u
    (r.1, { st with searchCache := r.2.1, extCount := r.2.2 })
  | .agent, u =>
    let r := shorten md5hex ext true st.agentCache st.extCount u
    (r.1, { st with agentCache := r.2.1, extCount := r.2.2 })

/-! ## Junction conditions

`junctionFree k v` is the decidable side condition under which replacing
any pattern by `v` can neither contain the key `k` nor recreate an
occurrence of `k` across a replacement boundary: `k` is not a substring
of `v`, `v` is not a substring of `k`, no nonempty prefix of `v` is a
suffix of `k`, and no nonempty suffix of `v` is a prefix of `k`. -/

/-- No nonempty prefix of `v` is a suffix of `k`. -/
def noPreSufB (v k : Str) : Bool :=
  (List.range v.length).all (fun i => !isSufB (v.take (i + 1)) k)

/-- No nonempty suffix of `v` is a prefix of `k`. -/
def noSufPreB (v k : Str) : Bool :=
  (List.range v.length).all (fun i => !isPreB (v.drop i) k)

/-- The full junction condition between a key `k` and a replacement
value `v`. -/
def junctionFree (k v : Str) : Bool :=
  !containsSub k v && !containsSub v k && noPreSufB v k && noSufPreB v k

/-! # Theorems -/

/-! ## Basic string machinery -/

theorem isPreB_iff {a b : Str} : isPreB a b = true ↔ ∃ t, a ++ t = b := by
  induction a generalizing b with
  | nil => simp [isPreB]
  | cons x xs ih =>
    cases b with
    | nil => simp [isPreB]
    | cons y ys =>
      simp only [isPreB, Bool.and_eq_true, decide_eq_true_eq, ih]
      constructor
      · rintro ⟨rfl, t, rfl⟩
        exact ⟨t, rfl⟩
      · rintro ⟨t, h⟩
        rcases List.cons.injEq .. ▸ h with ⟨rfl, h2⟩
        exact ⟨rfl, t, h2⟩

theorem isSufB_iff {a b : Str} : isSufB a b = true ↔ ∃ t, t ++ a = b := by
  unfold isSufB
  rw [isPreB_iff]
  constructor
  · rintro ⟨t, h⟩
    refine ⟨t.reverse, ?_⟩
    have := congrArg List.reverse h
    simpa [List.reverse_append] using this
  · rintro ⟨t, rfl⟩
    exact ⟨t.reverse, by simp [List.reverse_append]⟩

theorem containsSub_iff {k s : Str} :
    containsSub k s = true ↔ ∃ p q, p ++ k ++ q = s := by
  induction s with
  | nil =>
    simp only [containsSub, isPreB_iff]
    constructor
    · rintro ⟨t, h⟩
      exact ⟨[], t, h⟩
    · rintro ⟨p, q, h⟩
      rcases List.append_eq_nil.mp h with ⟨h1, h2⟩
      rcases List.append_eq_nil.mp h1 with ⟨rfl, rfl⟩
      exact ⟨q, h2⟩
  | cons c t ih =>
    simp only [containsSub, Bool.or_eq_true, isPreB_iff, ih]
    constructor
    · rintro (⟨u, h⟩ | ⟨p, q, h⟩)
      · exact ⟨[], u, by simpa using h⟩
      · exact ⟨c :: p, q, by simp [h]⟩
    · rintro ⟨p, q, h⟩
      cases p with
      | nil => exact Or.inl ⟨q, by simpa using h⟩
      | cons x xs =>
        rcases List.cons.injEq .. ▸ h with ⟨rfl, h2⟩
        exact Or.inr ⟨xs, q, h2⟩

theorem containsSub_nil_pat {s : Str} : containsSub [] s = true := by
  exact containsSub_iff.mpr ⟨[], s, rfl⟩

theorem containsSub_of_part {k a s : Str}
    (h : ∃ p q, p ++ a ++ q = s) (ha : containsSub k a = true) :
    containsSub k s = true := by
  rcases h with ⟨p, q, rfl⟩
  rcases containsSub_iff.mp ha with ⟨p', q', rfl⟩
  exact containsSub_iff.mpr ⟨p ++ p', q' ++ q, by simp⟩

theorem sub_append_split {k X Y : Str} (h : containsSub k (X ++ Y) = true) :
    containsSub k X = true ∨ containsSub k Y = true ∨
    ∃ x y, k = x ++ y ∧ x ≠ [] ∧ y ≠ [] ∧ (∃ t, t ++ x = X) ∧ ∃ t, y ++ t = Y := by
  rcases containsSub_iff.mp h with ⟨p, q, hpq⟩
  have hpq' : (p ++ k) ++ q = X ++ Y := by simpa using hpq
  rcases List.append_eq_append_iff.mp hpq' with ⟨a', hX, _⟩ | ⟨c', hpk, hY⟩
  · exact Or.inl (containsSub_iff.mpr ⟨p, a', by simp [hX]⟩)
  · rcases List.append_eq_append_iff.mp hpk with ⟨a', hXa, hk⟩ | ⟨c'', hpX, hc'⟩
    · rcases eq_or_ne a' [] with rfl | ha'
      · refine Or.inr (Or.inl (containsSub_iff.mpr ⟨[], q, ?_⟩))
        simp only [List.nil_append] at hk
        rw [hY, hk]
        simp
      · rcases eq_or_ne c' [] with rfl | hc'
        · refine Or.inl (containsSub_iff.mpr ⟨p, [], ?_⟩)
          rw [List.append_nil] at hk
          simp [hXa, hk]
        · exact Or.inr (Or.inr ⟨a', c', hk, ha', hc',
            ⟨p, hXa.symm⟩, ⟨q, hY.symm⟩⟩)
    · refine Or.inr (Or.inl (containsSub_iff.mpr ⟨c'', q, ?_⟩))
      rw [hY, hc']

theorem jf_k_ne_nil {k v : Str} (h : junctionFree k v = true) : k ≠ [] := by
  intro hk
  subst hk
  simp only [junctionFree, Bool.and_eq_true, Bool.not_eq_true'] at h
  exact absurd h.1.1.1 (by simp [containsSub_nil_pat])

theorem jf_v_ne_nil {k v : Str} (h : junctionFree k v = true) : v ≠ [] := by
  intro hv
  subst hv
  simp only [junctionFree, Bool.and_eq_true, Bool.not_eq_true'] at h
  exact absurd h.1.1.2 (by simp [containsSub_nil_pat])

theorem jf_not_sub_kv {k v : Str} (h : junctionFree k v = true) :
    containsSub k v = false := by
  simp only [junctionFree, Bool.and_eq_true, Bool.not_eq_true'] at h
  exact h.1.1.1

theorem jf_not_sub_vk {k v : Str} (h : junctionFree k v = true) :
    containsSub v k = false := by
  simp only [junctionFree, Bool.and_eq_true, Bool.not_eq_true'] at h
  exact h.1.1.2

theorem jf_noPreSuf {k v : Str} (h : junctionFree k v = true) :
    ∀ y, y ≠ [] → (∃ t, y ++ t = v) → (∃ t, t ++ y = k) → False := by
  rintro y hy ⟨t, hyt⟩ hsuf
  simp only [junctionFree, Bool.and_eq_true] at h
  have hall := h.1.2
  rw [noPreSufB, List.all_eq_true] at hall
  have hylen : 1 ≤ y.length := by
    cases y with
    | nil => exact absurd rfl hy
    | cons _ _ => simp
  have hyv : y.length ≤ v.length := by
    rw [← hyt]
    simp
  have hmem : y.length - 1 ∈ List.range v.length := by
    rw [List.mem_range]
    omega
  have := hall _ hmem
  rw [Bool.not_eq_true'] at this
  have htake : v.take (y.length - 1 + 1) = y := by
    have : y.length - 1 + 1 = y.length := by omega
    rw [this, ← hyt, List.take_left]
  rw [htake] at this
  exact absurd (isSufB_iff.mpr hsuf) (by simp [this])

theorem jf_noSufPre {k v : Str} (h : junctionFree k v = true) :
    ∀ x, x ≠ [] → (∃ t, t ++ x = v) → (∃ t, x ++ t = k) → False := by
  rintro x hx ⟨t, hxt⟩ hpre
  simp only [junctionFree, Bool.and_eq_true] at h
  have hall := h.2
  rw [noSufPreB, List.all_eq_true] at hall
  have hxlen : 1 ≤ x.length := by
    cases x with
    | nil => exact absurd rfl hx
    | cons _ _ => simp
  have hmem : t.length ∈ List.range v.length := by
    rw [List.mem_range, ← hxt]
    simp
    omega
  have := hall _ hmem
  rw [Bool.not_eq_true'] at this
  have hdrop : v.drop t.length = x := by
    rw [← hxt, List.drop_left]
  rw [hdrop] at this
  exact absurd (isPreB_iff.mpr hpre) (by simp [this])

theorem not_sub_append_three {k a v R : Str} (hjf : junctionFree k v = true)
    (ha : containsSub k a = false) (hR : containsSub k R = false) :
    containsSub k (a ++ (v ++ R)) = false := by
  cases hq : containsSub k (a ++ (v ++ R)) with
  | false => rfl
  | true =>
    exfalso
    rcases sub_append_split hq with hX | hYZ | ⟨x, y, hk, hx, hy, _, hpY⟩
    · rw [hX] at ha
      exact Bool.noConfusion ha
    · rcases sub_append_split hYZ with hv | hr | ⟨x, y, hk, hx, _, hsV, _⟩
      · rw [jf_not_sub_kv hjf] at hv
        exact Bool.noConfusion hv
      · rw [hR] at hr
        exact Bool.noConfusion hr
      · exact jf_noSufPre hjf x hx hsV ⟨y, hk.symm⟩
    · rcases hpY with ⟨t, hyt⟩
      rcases List.append_eq_append_iff.mp hyt with ⟨a', hva, _⟩ | ⟨c', hyv, _⟩
      · exact jf_noPreSuf hjf y hy ⟨a', hva.symm⟩ ⟨x, hk.symm⟩
      · have : containsSub v k = true :=
          containsSub_iff.mpr ⟨x, c', by rw [hk, hyv]; simp⟩
        rw [jf_not_sub_vk hjf] at this
        exact Bool.noConfusion this

theorem isPreB_nil_right {pat : Str} (hp : pat ≠ []) : isPreB pat [] = false := by
  cases pat with
  | nil => exact absurd rfl hp
  | cons _ _ => rfl

theorem containsSub_nil_right {pat : Str} (hp : pat ≠ []) :
    containsSub pat [] = false := by
  simp [containsSub, isPreB_nil_right hp]

theorem isPreB_append_of {pat l z : Str} (h : isPreB pat l = true) :
    isPreB pat (l ++ z) = true := by
  rcases isPreB_iff.mp h with ⟨t, rfl⟩
  exact isPreB_iff.mpr ⟨t ++ z, by simp⟩

theorem replaceAllF_fuel {pat rep : Str} :
    ∀ (f f' : Nat) (s : Str), s.length ≤ f → s.length ≤ f' →
      replaceAllF pat rep f s = replaceAllF pat rep f' s := by
  intro f
  induction f with
  | zero =>
    intro f' s hs _
    have : s = [] := List.length_eq_zero.mp (Nat.le_zero.mp hs)
    subst this
    cases f' <;> rfl
  | succ f ih =>
    intro f' s hs hs'
    cases s with
    | nil => cases f' <;> rfl
    | cons c t =>
      cases f' with
      | zero => exact absurd hs' (by simp)
      | succ f'' =>
        simp only [replaceAllF]
        simp only [List.length_cons] at hs hs'
        by_cases hcond : pat ≠ [] ∧ isPreB pat (c :: t) = true
        · rw [if_pos hcond, if_pos hcond]
          have h1 : 1 ≤ pat.length := by
            cases hpat : pat with
            | nil => exact absurd hpat hcond.1
            | cons _ _ => simp
          have hlen : ((c :: t).drop pat.length).length ≤ f := by
            simp only [List.length_drop, List.length_cons]
            omega
          have hlen' : ((c :: t).drop pat.length).length ≤ f'' := by
            simp only [List.length_drop, List.length_cons]
            omega
          rw [ih f'' _ hlen hlen']
        · rw [if_neg hcond, if_neg hcond]
          rw [ih f'' _ (by omega) (by omega)]

theorem replaceAll_nil_str {pat rep : Str} : replaceAll pat rep [] = [] := rfl

theorem replaceAll_nil_pat {rep : Str} : ∀ (s : Str), replaceAll [] rep s = s := by
  have aux : ∀ (f : Nat) (s : Str), replaceAllF [] rep f s = s := by
    intro f
    induction f with
    | zero => intro s; rfl
    | succ f ih =>
      intro s
      cases s with
      | nil => rfl
      | cons c t =>
        simp only [replaceAllF]
        rw [if_neg (by simp)]
        rw [ih]
  intro s
  exact aux s.length s

theorem replaceAll_spec (pat rep : Str) (hp : pat ≠ []) :
    ∀ (n : Nat) (s : Str), s.length ≤ n →
    (containsSub pat s = false ∧ replaceAll pat rep s = s) ∨
    (∃ a b, s = a ++ (pat ++ b) ∧ containsSub pat a = false ∧
       replaceAll pat rep s = a ++ (rep ++ replaceAll pat rep b)) := by
  intro n
  induction n with
  | zero =>
    intro s hs
    have : s = [] := List.length_eq_zero.mp (Nat.le_zero.mp hs)
    subst this
    exact Or.inl ⟨containsSub_nil_right hp, rfl⟩
  | succ n ih =>
    intro s hs
    cases s with
    | nil => exact Or.inl ⟨containsSub_nil_right hp, rfl⟩
    | cons c t =>
      by_cases hpre : isPreB pat (c :: t) = true
      · rcases isPreB_iff.mp hpre with ⟨b, hb⟩
        have hblen : b.length ≤ t.length := by
          have := congrArg List.length hb
          simp only [List.length_append, List.length_cons] at this
          have h1 : 1 ≤ pat.length := by
            cases hpat : pat with
            | nil => exact absurd hpat hp
            | cons _ _ => simp
          omega
        refine Or.inr ⟨[], b, by simp [hb.symm], containsSub_nil_right hp, ?_⟩
        show replaceAll pat rep (c :: t) = [] ++ (rep ++ replaceAll pat rep b)
        have hdrop : (c :: t).drop pat.length = b := by
          rw [← hb, List.drop_left]
        unfold replaceAll
        simp only [List.length_cons, replaceAllF]
        rw [if_pos ⟨hp, hpre⟩, hdrop]
        rw [replaceAllF_fuel t.length b.length b hblen (Nat.le_refl _)]
        simp
      · have hstep : replaceAll pat rep (c :: t) = c :: replaceAll pat rep t := by
          unfold replaceAll
          simp only [List.length_cons, replaceAllF]
          rw [if_neg (by intro hc; exact hpre hc.2)]
        have htlen : t.length ≤ n := by
          simp only [List.length_cons] at hs
          omega
        rcases ih t htlen with ⟨h1, h2⟩ | ⟨a, b, hab, hfa, hrw⟩
        · refine Or.inl ⟨?_, by rw [hstep, h2]⟩
          simp [containsSub, hpre, h1, Bool.or_eq_false_iff]
        · refine Or.inr ⟨c :: a, b, by simp [hab], ?_, ?_⟩
          · have hpa : isPreB pat (c :: a) = false := by
              cases hq : isPreB pat (c :: a) with
              | false => rfl
              | true =>
                exfalso
                have : isPreB pat ((c :: a) ++ (pat ++ b)) = true := isPreB_append_of hq
                rw [show (c :: a) ++ (pat ++ b) = c :: t by simp [hab]] at this
                exact hpre this
            simp [containsSub, hpa, hfa]
          · rw [hstep, hrw]
            simp

theorem replaceAll_key_free {k v : Str} (hjf : junctionFree k v = true) :
    ∀ (n : Nat) (s : Str), s.length ≤ n →
      containsSub k (replaceAll k v s) = false := by
  have hk := jf_k_ne_nil hjf
  intro n
  induction n with
  | zero =>
    intro s hs
    have : s = [] := List.length_eq_zero.mp (Nat.le_zero.mp hs)
    subst this
    rw [replaceAll_nil_str]
    exact containsSub_nil_right hk
  | succ n ih =>
    intro s hs
    rcases replaceAll_spec k v hk s.length s (Nat.le_refl _) with ⟨h1, h2⟩ | ⟨a, b, hab, hfa, hrw⟩
    · rw [h2]; exact h1
    · rw [hrw]
      have hblen : b.length ≤ n := by
        have := congrArg List.length hab
        have h1 : 1 ≤ k.length := by
          cases hkk : k with
          | nil => exact absurd hkk hk
          | cons _ _ => simp
        simp only [List.length_append] at this
        omega
      exact not_sub_append_three hjf hfa (ih b hblen)

theorem replaceAll_preserves_free {k r : Str} (hjf : junctionFree k r = true)
    (m : Str) :
    ∀ (n : Nat) (s : Str), s.length ≤ n → containsSub k s = false →
      containsSub k (replaceAll m r s) = false := by
  rcases eq_or_ne m [] with rfl | hm
  · intro n s _ hfree
    rw [replaceAll_nil_pat]
    exact hfree
  intro n
  induction n with
  | zero =>
    intro s hs hfree
    have : s = [] := List.length_eq_zero.mp (Nat.le_zero.mp hs)
    subst this
    rw [replaceAll_nil_str]
    exact hfree
  | succ n ih =>
    intro s hs hfree
    rcases replaceAll_spec m r hm s.length s (Nat.le_refl _) with ⟨h1, h2⟩ | ⟨a, b, hab, hfa, hrw⟩
    · rw [h2]; exact hfree
    · rw [hrw]
      have hka : containsSub k a = false := by
        cases hq : containsSub k a with
        | false => rfl
        | true =>
          exfalso
          have : containsSub k s = true :=
            containsSub_of_part ⟨[], m ++ b, by simp [hab]⟩ hq
          rw [hfree] at this
          exact Bool.noConfusion this
      have hkb : containsSub k b = false := by
        cases hq : containsSub k b with
        | false => rfl
        | true =>
          exfalso
          have : containsSub k s = true :=
            containsSub_of_part ⟨a ++ m, [], by simp [hab]⟩ hq
          rw [hfree] at this
          exact Bool.noConfusion this
      have hblen : b.length ≤ n := by
        have := congrArg List.length hab
        have h1 : 1 ≤ m.length := by
          cases hmm : m with
          | nil => exact absurd hmm hm
          | cons _ _ => simp
        simp only [List.length_append] at this
        omega
      exact not_sub_append_three hjf hka (ih b hblen hkb)

theorem passFold_free (md5hex : Str → Str) (ext : Nat → Option Str)
    (urlMap : List (Str × Str)) (k : Str) :
    ∀ (ms : List Str) (report : Str) (ac : List (Str × Str)) (n : Nat),
      (∀ m ∈ ms, ∃ r, dictLookup urlMap m = some r ∧ junctionFree k r = true) →
      (k ∈ ms ∨ containsSub k report = false) →
      containsSub k
        ((ms.foldl (fun acc m => passOne md5hex ext urlMap acc.2.1 acc.2.2 acc.1 m)
          (report, ac, n)).1) = false := by
  intro ms
  induction ms with
  | nil =>
    intro report ac n _ hstart
    rcases hstart with h | h
    · exact absurd h (List.not_mem_nil k)
    · exact h
  | cons m ms ih =>
    intro report ac n hall hstart
    rcases hall m (by simp) with ⟨r, hr, hjf⟩
    have hstep :
        passOne md5hex ext urlMap ac n report m = (replaceAll m r report, ac, n) := by
      unfold passOne
      rw [hr]
    simp only [List.foldl_cons, hstep]
    apply ih _ _ _ (fun m' hm' => hall m' (by simp [hm']))
    rcases hstart with hmem | hfree
    · rcases List.mem_cons.mp hmem with rfl | hmem'
      · exact Or.inr (replaceAll_key_free hjf report.length report (Nat.le_refl _))
      · exact Or.inl hmem'
    · exact Or.inr
        (replaceAll_preserves_free hjf m report.length report (Nat.le_refl _) hfree)

/-- C1 (amended): in `_generate_comprehensive_report`'s consistency
pass, every URL-shaped scan match that is a key of the URL map built
from the input candidates is replaced by its cached short form; hence
when every scan match of the narrative is a key of the map and each
mapped short value is junction-free with respect to a key `k` (neither
contains `k` nor can recreate it at a replacement boundary), the final
report contains zero occurrences of `k`. (As stated, without these
provisos, the claim is false: see the counterexample, where a key
occurrence embedded in a longer URL-shaped run survives the pass.) -/
theorem c1_consistency_pass_rewrites (md5hex : Str → Str) (ext : Nat → Option Str)
    (ac : List (Str × Str)) (n : Nat) (results : List Cand) (narrative k v : Str)
    (_hkey : dictLookup (prepass md5hex ext [] ac n results).2.1 k = some v)
    (hmem : k ∈ findUrls narrative)
    (hall : ∀ m ∈ findUrls narrative,
      ∃ r, dictLookup (prepass md5hex ext [] ac n results).2.1 m = some r ∧
        junctionFree k r = true) :
    containsSub k
      (generate_comprehensive_report md5hex ext ac n results (some narrative)).1 = false := by
  unfold generate_comprehensive_report consistencyPass
  exact passFold_free md5hex ext _ k (findUrls narrative) narrative _ _ hall (Or.inl hmem)

/-- C1 counterexample: the claim as stated ("the final report text
contains zero occurrences of that long URL" for EVERY key of the URL
map) is false. The narrative contains the key `https://b.com/y`
immediately followed by another URL; the scan finds the single run
`https://b.com/yhttps://a.com/x`, which is not a key, so after the pass
the key `https://b.com/y` still occurs in the report. -/
theorem c1_counterexample :
    dictLookup
      (prepass (fun _ => []) (fun _ => some ("https://t.co/z".data)) [] [] 0
        [⟨"ta".data, "https://a.com/x".data, some ("https://short.url/aaaa1111".data),
          [], "google".data, [], none⟩,
         ⟨"tb".data, "https://b.com/y".data, some ("https://short.url/bbbb2222".data),
          [], "google".data, [], none⟩]).2.1
      ("https://b.com/y".data) = some ("https://short.url/bbbb2222".data)
    ∧ containsSub ("https://b.com/y".data)
        (generate_comprehensive_report (fun _ => []) (fun _ => some ("https://t.co/z".data)) [] 0
          [⟨"ta".data, "https://a.com/x".data, some ("https://short.url/aaaa1111".data),
            [], "google".data, [], none⟩,
           ⟨"tb".data, "https://b.com/y".data, some ("https://short.url/bbbb2222".data),
            [], "google".data, [], none⟩]
          (some ("https://a.com/x and https://b.com/yhttps://a.com/x".data))).1 = true := by
  constructor
  · decide
  · decide

/-- C1 witness: the amended theorem applied to a narrative whose single
URL-shaped run is exactly a cached key. -/
theorem c1_witness :
    containsSub ("https://a.com/x".data)
      (generate_comprehensive_report (fun _ => []) (fun _ => some ("https://t.co/z".data)) [] 0
        [⟨"ta".data, "https://a.com/x".data, some ("https://short.url/aaaa1111".data),
          [], "google".data, [], none⟩]
        (some ("see https://a.com/x here".data))).1 = false := by
  apply c1_consistency_pass_rewrites (fun _ => []) (fun _ => some ("https://t.co/z".data))
    [] 0 _ _ _ ("https://short.url/aaaa1111".data)
  · decide
  · decide
  · intro m hm
    have hf : findUrls ("see https://a.com/x here".data) = [("https://a.com/x".data)] := by
      decide
    rw [hf] at hm
    have : m = ("https://a.com/x".data) := by simpa using hm
    subst this
    exact ⟨("https://short.url/aaaa1111".data), by decide, by decide⟩

/-! ## C2: shortener idempotence -/

theorem dictLookup_insert_self (m : List (Str × Str)) (k v : Str) :
    dictLookup (dictInsert m k v) k = some v := by
  induction m with
  | nil => simp [dictInsert, dictLookup]
  | cons p rest ih =>
    obtain ⟨k', v'⟩ := p
    by_cases h : k' = k
    · simp [dictInsert, dictLookup, h]
    · simp [dictInsert, dictLookup, h, ih]

theorem dictInsert_values_ne_nil {m : List (Str × Str)} {k v : Str}
    (hm : ∀ p ∈ m, p.2 ≠ ([] : Str)) (hv : v ≠ ([] : Str)) :
    ∀ p ∈ dictInsert m k v, p.2 ≠ ([] : Str) := by
  induction m with
  | nil =>
    intro p hp
    simp only [dictInsert, List.mem_singleton] at hp
    subst hp
    exact hv
  | cons q rest ih =>
    obtain ⟨k', v'⟩ := q
    intro p hp
    by_cases h : k' = k
    · simp only [dictInsert, if_pos h, List.mem_cons] at hp
      rcases hp with rfl | hp
      · exact hv
      · exact hm p (List.mem_cons_of_mem _ hp)
    · simp only [dictInsert, if_neg h, List.mem_cons] at hp
      rcases hp with rfl | hp
      · exact hm _ (List.mem_cons_self _ _)
      · exact ih (fun q hq => hm q (List.mem_cons_of_mem _ hq)) p hp

theorem shorten_locally_ne_nil (md5hex : Str → Str) (u : Str) :
    shorten_locally md5hex u ≠ [] := by
  simp [shorten_locally]

theorem dictLookup_values {m : List (Str × Str)} {k v : Str}
    (h : dictLookup m k = some v) : ∃ p ∈ m, p.2 = v := by
  induction m with
  | nil => simp [dictLookup] at h
  | cons q rest ih =>
    obtain ⟨k', v'⟩ := q
    by_cases hk : k' = k
    · rw [dictLookup, if_pos hk] at h
      exact ⟨(k', v'), List.mem_cons_self _ _, Option.some.injEq .. ▸ h.symm ▸ rfl⟩
    · rw [dictLookup, if_neg hk] at h
      rcases ih h with ⟨p, hp, hv⟩
      exact ⟨p, List.mem_cons_of_mem _ hp, hv⟩

/-- The result/cache/counter structure of one `shorten` call: the
result is the value now cached under `u`, nonempty cache values are
preserved, and the result is nonempty. -/
theorem shorten_post (md5hex : Str → Str) (ext : Nat → Option Str)
    (cache : List (Str × Str)) (n : Nat) (u : Str)
    (hinv : ∀ p ∈ cache, p.2 ≠ ([] : Str)) :
    (shorten md5hex ext true cache n u).1 ≠ [] ∧
    dictLookup (shorten md5hex ext true cache n u).2.1 u =
      some (shorten md5hex ext true cache n u).1 ∧
    (∀ p ∈ (shorten md5hex ext true cache n u).2.1, p.2 ≠ ([] : Str)) := by
  cases hc : dictLookup cache u with
  | some s =>
    have hres : shorten md5hex ext true cache n u = (s, cache, n) := by
      unfold shorten
      rw [hc]
    rw [hres]
    refine ⟨?_, hc, hinv⟩
    rcases dictLookup_values hc with ⟨p, hp, hv⟩
    exact hv ▸ hinv p hp
  | none =>
    cases hext : ext n with
    | some t =>
      by_cases ht : t = []
      · have hres : shorten md5hex ext true cache n u =
            (shorten_locally md5hex u, dictInsert cache u (shorten_locally md5hex u), n + 1) := by
          unfold shorten
          rw [hc]
          simp [hext, ht]
        rw [hres]
        exact ⟨shorten_locally_ne_nil md5hex u, dictLookup_insert_self cache u _,
          dictInsert_values_ne_nil hinv (shorten_locally_ne_nil md5hex u)⟩
      · have hres : shorten md5hex ext true cache n u = (t, dictInsert cache u t, n + 1) := by
          unfold shorten
          rw [hc]
          simp [hext, ht]
        rw [hres]
        exact ⟨ht, dictLookup_insert_self cache u t, dictInsert_values_ne_nil hinv ht⟩
    | none =>
      have hres : shorten md5hex ext true cache n u =
          (shorten_locally md5hex u, dictInsert cache u (shorten_locally md5hex u), n + 1) := by
        unfold shorten
        rw [hc]
        simp [hext]
      rw [hres]
      exact ⟨shorten_locally_ne_nil md5hex u, dictLookup_insert_self cache u _,
        dictInsert_values_ne_nil hinv (shorten_locally_ne_nil md5hex u)⟩

/-- C2 (amended): a SINGLE `UrlShortener` instance never fails and is
idempotent — with any cache whose values are nonempty, the first call
returns a nonempty short URL, and a second call for the same URL on the
same instance returns the same value, leaves the cache unchanged, and
makes no further external call (whatever the external service would now
answer). The process, however, holds two independent instances (see
`c2_counterexample`), so this does not extend across components. -/
theorem c2_instance_idempotent (md5hex : Str → Str) (ext ext' : Nat → Option Str)
    (cache : List (Str × Str)) (n n' : Nat) (u : Str)
    (hinv : ∀ p ∈ cache, p.2 ≠ ([] : Str)) :
    (shorten md5hex ext true cache n u).1 ≠ [] ∧
    shorten md5hex ext' true (shorten md5hex ext true cache n u).2.1 n' u =
      ((shorten md5hex ext true cache n u).1,
       (shorten md5hex ext true cache n u).2.1, n') := by
  rcases shorten_post md5hex ext cache n u hinv with ⟨hne, hcached, _⟩
  refine ⟨hne, ?_⟩
  generalize shorten md5hex ext true cache n u = r at hcached ⊢
  unfold shorten
  rw [hcached]

/-- C2 witness for the amended theorem. -/
theorem c2_witness :
    (shorten (fun _ => "0123456789abcdef".data) (fun _ => none) true [] 0
      ("https://u.com".data)).1 ≠ [] ∧
    shorten (fun _ => "0123456789abcdef".data) (fun _ => some ("https://t.co/b".data)) true
      (shorten (fun _ => "0123456789abcdef".data) (fun _ => none) true [] 0
        ("https://u.com".data)).2.1 7 ("https://u.com".data) =
      ((shorten (fun _ => "0123456789abcdef".data) (fun _ => none) true [] 0
          ("https://u.com".data)).1,
       (shorten (fun _ => "0123456789abcdef".data) (fun _ => none) true [] 0
          ("https://u.com".data)).2.1, 7) :=
  c2_instance_idempotent (fun _ => "0123456789abcdef".data) (fun _ => none)
    (fun _ => some ("https://t.co/b".data)) [] 0 7 ("https://u.com".data)
    (by intro p hp; exact absurd hp (List.not_mem_nil p))

/-- C2 counterexample: the claim as stated quantifies over the whole
pipeline ("across every component"), but `GoogleSearchTool` and
`LLMAgent` each construct their own `UrlShortener`. Resolving the same
URL first through the search tool and then through the agent makes a
SECOND external call (`extCount = 2`) and can return a different short
URL. -/
theorem c2_counterexample :
    (pipeShorten (fun _ => [])
        (fun i => some (if i = 0 then "https://t.co/a".data else "https://t.co/b".data))
        ⟨[], [], 0⟩ Component.searchTool ("https://u.com".data)).1 ≠
      (pipeShorten (fun _ => [])
          (fun i => some (if i = 0 then "https://t.co/a".data else "https://t.co/b".data))
          (pipeShorten (fun _ => [])
            (fun i => some (if i = 0 then "https://t.co/a".data else "https://t.co/b".data))
            ⟨[], [], 0⟩ Component.searchTool ("https://u.com".data)).2
          Component.agent ("https://u.com".data)).1 ∧
    (pipeShorten (fun _ => [])
        (fun i => some (if i = 0 then "https://t.co/a".data else "https://t.co/b".data))
        (pipeShorten (fun _ => [])
          (fun i => some (if i = 0 then "https://t.co/a".data else "https://t.co/b".data))
          ⟨[], [], 0⟩ Component.searchTool ("https://u.com".data)).2
        Component.agent ("https://u.com".data)).2.extCount = 2 := by
  constructor
  · decide
  · decide

/-! ## C3: enrichment shape -/

theorem enrich_length (fetch : Str → Option Str) (parse : Str → Option Doc)
    (cs : List Cand) :
    (enrich_search_results fetch parse cs).1.length = cs.length := by
  simp only [enrich_search_results, List.length_append, List.length_map,
    List.length_take, List.length_drop]
  omega

theorem enrich_beyond (fetch : Str → Option Str) (parse : Str → Option Doc)
    (cs : List Cand) (i : Nat) (hi : 5 ≤ i) :
    (enrich_search_results fetch parse cs).1[i]? = cs[i]? := by
  simp only [enrich_search_results]
  rw [List.getElem?_append_right
    (by simp only [List.length_map, List.length_take]; omega)]
  rw [List.getElem?_drop]
  simp only [List.length_map, List.length_take]
  by_cases hlen : 5 ≤ cs.length
  · have : min 5 cs.length = 5 := by omega
    rw [this]
    congr 1
    omega
  · have h1 : cs.length ≤ i := by omega
    rw [List.getElem?_eq_none h1, List.getElem?_eq_none (by omega)]

/-- C3: `_enrich_search_results` preserves length and order; exactly
`min (length, 5)` fetches are issued; every candidate beyond the first
5 is passed through unchanged (hence, for pipeline inputs, without
`full_content`); and a candidate among the first 5 whose fetch fails is
kept unchanged (no `full_content`) at its original position. -/
theorem c3_enrich (fetch : Str → Option Str) (parse : Str → Option Doc)
    (cs : List Cand) (h : ∀ c ∈ cs, c.full_content = none) :
    (enrich_search_results fetch parse cs).1.length = cs.length ∧
    (enrich_search_results fetch parse cs).2 = min cs.length 5 ∧
    (∀ i, 5 ≤ i → (enrich_search_results fetch parse cs).1[i]? = cs[i]?) ∧
    (∀ i c, 5 ≤ i → (enrich_search_results fetch parse cs).1[i]? = some c →
      c.full_content = none) ∧
    (∀ i c, i < 5 → cs[i]? = some c → fetch c.link = none →
      (enrich_search_results fetch parse cs).1[i]? = some c) := by
  refine ⟨enrich_length fetch parse cs, ?_, ?_, ?_, ?_⟩
  · simp only [enrich_search_results, List.length_take]
    omega
  · intro i hi
    exact enrich_beyond fetch parse cs i hi
  · intro i c hi hsome
    rw [enrich_beyond fetch parse cs i hi] at hsome
    exact h c (List.getElem?_mem hsome)
  · intro i c hi hsome hfail
    have hilen : i < cs.length := by
      cases hq : cs[i]? with
      | none => rw [hq] at hsome; exact Option.noConfusion hsome
      | some _ => exact (List.getElem?_eq_some_iff.mp hq).1
    simp only [enrich_search_results]
    rw [List.getElem?_append_left
      (by simp only [List.length_map, List.length_take]; omega)]
    rw [List.getElem?_map, List.getElem?_take_of_lt hi, hsome]
    simp only [Option.map_some']
    congr 1
    unfold enrichOne
    rw [hfail]

/-- C3 witness: one candidate whose fetch fails passes through
unchanged at position 0. -/
theorem c3_witness :
    (enrich_search_results (fun _ => none) (fun _ => none)
      [⟨"t".data, "https://a.com".data, some ("s".data), [], "google".data, [], none⟩]).1[0]? =
      some ⟨"t".data, "https://a.com".data, some ("s".data), [], "google".data, [], none⟩ := by
  have h := c3_enrich (fun _ => none) (fun _ => none)
    [⟨"t".data, "https://a.com".data, some ("s".data), [], "google".data, [], none⟩]
    (by
      intro c hc
      rw [List.mem_singleton] at hc
      subst hc
      rfl)
  exact h.2.2.2.2 0 _ (by omega) rfl rfl

/-! ## C4: fetch retry policy -/

theorem getPageLoop_succ_success {attempts : Nat → FetchOutcome} {idx st : Nat}
    {c : Str} (f : Nat) (h : attempts idx = .resp st c) (h2 : 200 ≤ st ∧ st < 300) :
    getPageLoop attempts (f + 1) idx = (some c, 1, 0) := by
  simp only [getPageLoop, h]
  rw [if_neg (by omega), if_neg (by simp [h2])]

theorem getPageLoop_succ_retry {attempts : Nat → FetchOutcome} {idx : Nat}
    (f : Nat) (h : retryable (attempts idx) = true) (hf : 0 < f) :
    getPageLoop attempts (f + 1) idx =
      ((getPageLoop attempts f (idx + 1)).1,
       (getPageLoop attempts f (idx + 1)).2.1 + 1,
       (getPageLoop attempts f (idx + 1)).2.2 + 1) := by
  cases ho : attempts idx with
  | resp st c =>
    rw [ho] at h
    simp only [retryable, Bool.not_eq_true', Bool.and_eq_false_iff,
      decide_eq_false_iff_not] at h
    simp only [getPageLoop, ho]
    by_cases h4 : 400 ≤ st ∧ st < 600
    · rw [if_pos h4, if_pos hf]
    · rw [if_neg h4, if_pos (show ¬(200 ≤ st ∧ st < 300) by
        intro hc
        rcases h with h | h <;> omega), if_pos hf]
  | transportErr =>
    simp only [getPageLoop, ho]
    rw [if_pos hf]
  | otherErr =>
    rw [ho] at h
    exact Bool.noConfusion h

theorem getPageLoop_succ_exhaust {attempts : Nat → FetchOutcome} {idx : Nat}
    (h : retryable (attempts idx) = true) :
    getPageLoop attempts 1 idx = (none, 1, 0) := by
  cases ho : attempts idx with
  | resp st c =>
    rw [ho] at h
    simp only [retryable, Bool.not_eq_true', Bool.and_eq_false_iff,
      decide_eq_false_iff_not] at h
    simp only [getPageLoop, ho]
    by_cases h4 : 400 ≤ st ∧ st < 600
    · rw [if_pos h4, if_neg (by omega)]
    · rw [if_neg h4, if_pos (show ¬(200 ≤ st ∧ st < 300) by
        intro hc
        rcases h with h | h <;> omega), if_neg (by omega)]
  | transportErr =>
    simp only [getPageLoop, ho]
    rw [if_neg (by omega)]
  | otherErr =>
    rw [ho] at h
    exact Bool.noConfusion h

theorem getPageLoop_succ_other {attempts : Nat → FetchOutcome} {idx : Nat}
    (f : Nat) (h : attempts idx = .otherErr) :
    getPageLoop attempts (f + 1) idx = (none, 1, 0) := by
  simp only [getPageLoop, h]

theorem getPageLoop_spec (attempts : Nat → FetchOutcome) :
    ∀ (fuel idx : Nat), 0 < fuel →
    ∃ r a s, getPageLoop attempts fuel idx = (r, a, s) ∧
      1 ≤ a ∧ a ≤ fuel ∧ s = a - 1 ∧
      (∀ i, i + 1 < a → retryable (attempts (idx + i)) = true) ∧
      (r = none ↔ (attempts (idx + (a - 1)) = .otherErr ∨
        (a = fuel ∧ retryable (attempts (idx + (a - 1))) = true))) ∧
      (∀ c, r = some c → ∃ st, attempts (idx + (a - 1)) = .resp st c ∧
        200 ≤ st ∧ st < 300) := by
  intro fuel
  induction fuel with
  | zero => intro idx h0; exact absurd h0 (by omega)
  | succ f ih =>
    intro idx _
    cases ho : attempts idx with
    | resp st c =>
      by_cases h2 : 200 ≤ st ∧ st < 300
      · refine ⟨some c, 1, 0, getPageLoop_succ_success f ho h2, by omega, by omega,
          by omega, by omega, ?_, ?_⟩
        · simp only [Nat.sub_self, Nat.add_zero]
          constructor
          · intro hc
            exact Option.noConfusion hc
          · rintro (hother | ⟨haf, hret⟩)
            · rw [ho] at hother
              exact FetchOutcome.noConfusion hother
            · rw [ho] at hret
              simp only [retryable, Bool.not_eq_true', Bool.and_eq_false_iff,
                decide_eq_false_iff_not] at hret
              rcases hret with h | h <;> omega
        · intro c' hc'
          simp only [Nat.sub_self, Nat.add_zero]
          refine ⟨st, ?_, h2⟩
          rw [Option.some.injEq] at hc'
          rw [ho, hc']
      · have hret : retryable (attempts idx) = true := by
          rw [ho]
          simp only [retryable, Bool.not_eq_true', Bool.and_eq_false_iff,
            decide_eq_false_iff_not]
          by_cases hst : 200 ≤ st
          · exact Or.inr (fun hc => h2 ⟨hst, hc⟩)
          · exact Or.inl hst
        rcases Nat.eq_zero_or_pos f with rfl | hf
        · refine ⟨none, 1, 0, getPageLoop_succ_exhaust hret, by omega, by omega,
            by omega, by omega, ?_, ?_⟩
          · simp only [Nat.sub_self, Nat.add_zero]
            exact ⟨fun _ => Or.inr ⟨by trivial, hret⟩, fun _ => by trivial⟩
          · intro c' hc'
            exact Option.noConfusion hc'
        · rcases ih (idx + 1) hf with ⟨r', a', s', heq, ha1, haf, hs, hnonfinal, hiff, hsome⟩
          refine ⟨r', a' + 1, s' + 1, ?_, by omega, by omega, by omega, ?_, ?_, ?_⟩
          · rw [getPageLoop_succ_retry f hret hf, heq]
          · intro i hi
            cases i with
            | zero => exact hret
            | succ j =>
              have : idx + (j + 1) = idx + 1 + j := by omega
              rw [this]
              exact hnonfinal j (by omega)
          · have hidx : idx + (a' + 1 - 1) = idx + 1 + (a' - 1) := by omega
            rw [hidx]
            rw [hiff]
            constructor
            · rintro (h | ⟨hh1, hh2⟩)
              · exact Or.inl h
              · exact Or.inr ⟨by omega, hh2⟩
            · rintro (h | ⟨hh1, hh2⟩)
              · exact Or.inl h
              · exact Or.inr ⟨by omega, hh2⟩
          · intro c' hc'
            have hidx : idx + (a' + 1 - 1) = idx + 1 + (a' - 1) := by omega
            rw [hidx]
            exact hsome c' hc'
    | transportErr =>
      have hret : retryable (attempts idx) = true := by rw [ho]; rfl
      rcases Nat.eq_zero_or_pos f with rfl | hf
      · refine ⟨none, 1, 0, getPageLoop_succ_exhaust hret, by omega, by omega,
          by omega, by omega, ?_, ?_⟩
        · simp only [Nat.sub_self, Nat.add_zero]
          exact ⟨fun _ => Or.inr ⟨by trivial, hret⟩, fun _ => by trivial⟩
        · intro c' hc'
          exact Option.noConfusion hc'
      · rcases ih (idx + 1) hf with ⟨r', a', s', heq, ha1, haf, hs, hnonfinal, hiff, hsome⟩
        refine ⟨r', a' + 1, s' + 1, ?_, by omega, by omega, by omega, ?_, ?_, ?_⟩
        · rw [getPageLoop_succ_retry f hret hf, heq]
        · intro i hi
          cases i with
          | zero => exact hret
          | succ j =>
            have : idx + (j + 1) = idx + 1 + j := by omega
            rw [this]
            exact hnonfinal j (by omega)
        · have hidx : idx + (a' + 1 - 1) = idx + 1 + (a' - 1) := by omega
          rw [hidx, hiff]
          constructor
          · rintro (h | ⟨hh1, hh2⟩)
            · exact Or.inl h
            · exact Or.inr ⟨by omega, hh2⟩
          · rintro (h | ⟨hh1, hh2⟩)
            · exact Or.inl h
            · exact Or.inr ⟨by omega, hh2⟩
        · intro c' hc'
          have hidx : idx + (a' + 1 - 1) = idx + 1 + (a' - 1) := by omega
          rw [hidx]
          exact hsome c' hc'
    | otherErr =>
      refine ⟨none, 1, 0, getPageLoop_succ_other f ho, by omega, by omega,
        by omega, by omega, ?_, ?_⟩
      · simp only [Nat.sub_self, Nat.add_zero]
        exact ⟨fun _ => Or.inl ho, fun _ => by trivial⟩
      · intro c' hc'
        exact Option.noConfusion hc'

/-- C4 (amended): `get_page_content` makes between 1 and 3 attempts and
sleeps exactly one second between consecutive attempts (`s = a - 1`); a
non-final attempt happens exactly when the previous outcome was
retryable (HTTP status outside the 2xx success range — in particular
any status in [400,599] — or a transport-level `httpx.HTTPError`); it
never raises; it returns failure exactly when the final attempt was a
non-HTTP internal error (not retried, may happen on the first attempt)
or when all 3 attempts were consumed with a retryable final outcome;
and it returns content exactly from a 2xx response. -/
theorem c4_fetch_policy (attempts : Nat → FetchOutcome) :
    ∃ r a s, get_page_content attempts = (r, a, s) ∧
      1 ≤ a ∧ a ≤ 3 ∧ s = a - 1 ∧
      (∀ i, i + 1 < a → retryable (attempts i) = true) ∧
      (r = none ↔ (attempts (a - 1) = .otherErr ∨
        (a = 3 ∧ retryable (attempts (a - 1)) = true))) ∧
      (∀ c, r = some c → ∃ st, attempts (a - 1) = .resp st c ∧
        200 ≤ st ∧ st < 300) := by
  have h := getPageLoop_spec attempts 3 0 (by omega)
  simpa [get_page_content, Nat.zero_add] using h

/-- C4 counterexample to the claim as stated: (i) an internal
non-transport exception (e.g. `httpx.InvalidURL`, caught by the final
`except Exception`) makes `get_page_content` return failure after a
single attempt, not "only after all attempts are exhausted"; (ii) a
final 300 response — outside [400,599] and not a transport error — is
retried to exhaustion, because `raise_for_status` raises
`httpx.HTTPStatusError ⊂ httpx.HTTPError` for every non-2xx status. -/
theorem c4_counterexample :
    get_page_content (fun _ => FetchOutcome.otherErr) = (none, 1, 0) ∧
    (get_page_content (fun _ => FetchOutcome.resp 300 [])).2.1 = 3 := by
  constructor
  · decide
  · decide

/-- C4 witness: the amended theorem at a stream of 500 responses yields
failure (after exhaustion). -/
theorem c4_witness :
    (get_page_content (fun _ => FetchOutcome.resp 500 ("x".data))).1 = none := by
  rcases c4_fetch_policy (fun _ => FetchOutcome.resp 500 ("x".data)) with
    ⟨r, a, s, heq, h1, h3, hs, hnf, hiff, hsome⟩
  rw [heq]
  show r = none
  rw [hiff]
  have ha : a = 3 := by
    have hc : (get_page_content (fun _ => FetchOutcome.resp 500 ("x".data))).2.1 = 3 := by
      decide
    rw [heq] at hc
    exact hc
  subst ha
  exact Or.inr ⟨rfl, by decide⟩

/-! ## C5: short links are never empty -/

theorem formatItems_short (md5hex : Str → Str) (ext : Nat → Option Str) :
    ∀ (items : List Item) (cache : List (Str × Str)) (n : Nat),
      (∀ p ∈ cache, p.2 ≠ ([] : Str)) →
      (∀ c ∈ (formatItems md5hex ext cache n items).1,
        ∃ s, c.short_link = some s ∧ s ≠ []) ∧
      (∀ p ∈ (formatItems md5hex ext cache n items).2.1, p.2 ≠ ([] : Str)) := by
  intro items
  induction items with
  | nil =>
    intro cache n hinv
    exact ⟨by intro c hc; exact absurd hc (List.not_mem_nil c), hinv⟩
  | cons it rest ih =>
    intro cache n hinv
    rcases shorten_post md5hex ext cache n it.link hinv with ⟨hne, _, hinv'⟩
    rcases ih (shorten md5hex ext true cache n it.link).2.1
      (shorten md5hex ext true cache n it.link).2.2 hinv' with ⟨ihmem, ihinv⟩
    constructor
    · intro c hc
      simp only [formatItems, List.mem_cons] at hc
      rcases hc with rfl | hc
      · exact ⟨(shorten md5hex ext true cache n it.link).1, rfl, hne⟩
      · exact ihmem c hc
    · intro p hp
      simp only [formatItems] at hp
      exact ihinv p hp

theorem enrichOne_short_link (fetch : Str → Option Str) (parse : Str → Option Doc)
    (c : Cand) : (enrichOne fetch parse c).short_link = c.short_link := by
  unfold enrichOne
  split
  · split
    · rfl
    · rfl
  · rfl

theorem enrich_mem (fetch : Str → Option Str) (parse : Str → Option Doc)
    (cs : List Cand) :
    ∀ c' ∈ (enrich_search_results fetch parse cs).1,
      ∃ c ∈ cs, c'.short_link = c.short_link := by
  intro c' h
  simp only [enrich_search_results, List.mem_append] at h
  rcases h with h | h
  · rcases List.mem_map.mp h with ⟨c, hc, rfl⟩
    exact ⟨c, List.mem_of_mem_take hc, enrichOne_short_link ..⟩
  · exact ⟨c', List.mem_of_mem_drop h, rfl⟩

/-- C5: every candidate returned by `search` carries a nonempty
`short_link` (given the cache invariant that all cached values are
nonempty — true from the start with the empty cache); and when the
external shortening call for the first item's (uncached) link fails or
returns an empty body, its candidate carries the deterministic local
hash form `https://short.url/<hash8>`. -/
theorem c5_short_link (md5hex : Str → Str) (ext : Nat → Option Str)
    (fetch : Str → Option Str) (parse : Str → Option Doc) (deep : Bool)
    (apiResp : Option (Option (List Item))) (cache : List (Str × Str)) (n : Nat)
    (hinv : ∀ p ∈ cache, p.2 ≠ ([] : Str)) :
    (∀ c ∈ (search md5hex ext fetch parse deep apiResp cache n).1,
      ∃ s, c.short_link = some s ∧ s ≠ []) ∧
    (∀ (it : Item) (rest : List Item), apiResp = some (some (it :: rest)) →
      dictLookup cache it.link = none → (ext n = none ∨ ext n = some []) →
      ∃ c, (search md5hex ext fetch parse deep apiResp cache n).1[0]? = some c ∧
        c.short_link = some (shorten_locally md5hex it.link)) := by
  constructor
  · intro c hc
    match apiResp with
    | none => exact absurd hc (List.not_mem_nil c)
    | some none => exact absurd hc (List.not_mem_nil c)
    | some (some items) =>
      rcases formatItems_short md5hex ext items cache n hinv with ⟨hmem, _⟩
      cases deep with
      | false => exact hmem c hc
      | true =>
        simp only [search] at hc
        rcases enrich_mem fetch parse _ c hc with ⟨c0, hc0, hsl⟩
        rcases hmem c0 hc0 with ⟨s, hs, hsne⟩
        exact ⟨s, hsl ▸ hs, hsne⟩
  · rintro it rest rfl hmiss hext
    have hshort : shorten md5hex ext true cache n it.link =
        (shorten_locally md5hex it.link,
         dictInsert cache it.link (shorten_locally md5hex it.link), n + 1) := by
      unfold shorten
      rw [hmiss]
      rcases hext with hext | hext
      · simp [hext]
      · simp [hext]
    cases deep with
    | false =>
      refine ⟨⟨it.title, it.link, some (shorten md5hex ext true cache n it.link).1,
        it.snippet, "google".data, it.published_date, none⟩, ?_, ?_⟩
      · simp only [search, formatItems]
        rw [if_neg (by simp)]
        simp only [List.getElem?_cons_zero]
      · rw [hshort]
    | true =>
      refine ⟨enrichOne fetch parse ⟨it.title, it.link,
        some (shorten md5hex ext true cache n it.link).1,
        it.snippet, "google".data, it.published_date, none⟩, ?_, ?_⟩
      · simp only [search, formatItems, if_true]
        simp only [enrich_search_results]
        rw [List.getElem?_append_left (by
          simp only [List.length_map, List.length_take, List.length_cons]
          omega)]
        rw [List.getElem?_map, List.getElem?_take_of_lt (by omega),
          List.getElem?_cons_zero]
        rfl
      · rw [enrichOne_short_link]
        show some (shorten md5hex ext true cache n it.link).1 = _
        rw [hshort]

/-- C5 witness: one item, external shortener down — the candidate
carries the local hash form. -/
theorem c5_witness :
    ∃ c, (search (fun _ => "0123456789abcdef".data) (fun _ => none) (fun _ => none)
        (fun _ => none) true
        (some (some [⟨"t".data, "https://a.com".data, "sn".data, "d".data⟩])) [] 0).1[0]? =
        some c ∧
      c.short_link =
        some (shorten_locally (fun _ => "0123456789abcdef".data) ("https://a.com".data)) := by
  have h := c5_short_link (fun _ => "0123456789abcdef".data) (fun _ => none) (fun _ => none)
    (fun _ => none) true (some (some [⟨"t".data, "https://a.com".data, "sn".data, "d".data⟩]))
    [] 0 (by intro p hp; exact absurd hp (List.not_mem_nil p))
  exact h.2 ⟨"t".data, "https://a.com".data, "sn".data, "d".data⟩ [] rfl rfl (Or.inl rfl)

/-! ## C6: content selection in the pipeline's extractor -/

theorem pyMax_mem (key : α → Nat) :
    ∀ (l : List α) (x : α), pyMax key x l ∈ x :: l := by
  intro l
  induction l with
  | nil => intro x; exact List.mem_singleton.mpr rfl
  | cons e es ih =>
    intro x
    show pyMax key (if key x < key e then e else x) es ∈ x :: e :: es
    by_cases h : key x < key e
    · rw [if_pos h]
      rcases List.mem_cons.mp (ih e) with h' | h'
      · rw [h']
        simp
      · simp [h']
    · rw [if_neg h]
      rcases List.mem_cons.mp (ih x) with h' | h'
      · rw [h']
        simp
      · simp [h']

theorem pyMax_le (key : α → Nat) :
    ∀ (l : List α) (x : α) (y : α), y ∈ x :: l → key y ≤ key (pyMax key x l) := by
  intro l
  induction l with
  | nil =>
    intro x y hy
    rw [List.mem_singleton] at hy
    subst hy
    exact Nat.le_refl _
  | cons e es ih =>
    intro x y hy
    show key y ≤ key (pyMax key (if key x < key e then e else x) es)
    have hxstep : key x ≤ key (if key x < key e then e else x) := by
      by_cases h : key x < key e
      · rw [if_pos h]; omega
      · rw [if_neg h]
    have hestep : key e ≤ key (if key x < key e then e else x) := by
      by_cases h : key x < key e
      · rw [if_pos h]
      · rw [if_neg h]; omega
    have hstep : key (if key x < key e then e else x) ≤
        key (pyMax key (if key x < key e then e else x) es) :=
      ih _ _ (List.mem_cons_self _ _)
    rcases List.mem_cons.mp hy with rfl | hy'
    · exact Nat.le_trans hxstep hstep
    · rcases List.mem_cons.mp hy' with rfl | hy'way
      · exact Nat.le_trans hestep hstep
      · exact ih _ y (List.mem_cons_of_mem _ hy'way)

/-- C6 (amended): the extractor actually used by the pipeline
(`GoogleSearchTool._clean_html_content`) collects candidates only from
the selectors `article, main, div.content, div.article, div.post` — the
whole `body` is NOT among the candidates (it is only the final fallback
when neither candidates nor paragraphs exist) — applies NO minimum
length filter, and, when candidates exist, selects the first candidate
of maximal visible-text length, whose (possibly truncated) text becomes
the result. (The 100-character filter and the `body` last-resort
candidate described by the claim exist only in summarizer.py's
`_clean_html`, which `process_query` never invokes.) -/
theorem c6_extractor (doc : Doc) (e : Element) (es : List Element)
    (hpe : potential_content_elements doc = e :: es) :
    (∀ x ∈ potential_content_elements doc,
      x.tag = "article".data ∨ x.tag = "main".data ∨ x.tag = "div".data) ∧
    pyMax (fun x => x.stripText.length) e es ∈ potential_content_elements doc ∧
    (∀ x ∈ potential_content_elements doc,
      x.stripText.length ≤ (pyMax (fun x => x.stripText.length) e es).stripText.length) ∧
    cleanFromDoc doc =
      (if (pyMax (fun x => x.stripText.length) e es).sepText ≠ [] then
        limitContent (pyMax (fun x => x.stripText.length) e es).sepText
       else unavailSentinel) := by
  refine ⟨?_, ?_, ?_, ?_⟩
  · intro x hx
    simp only [potential_content_elements, List.mem_append, selectTag, selectTagClass,
      List.mem_filter] at hx
    rcases hx with ⟨⟨⟨⟨_, h⟩ | ⟨_, h⟩⟩ | ⟨_, h⟩⟩ | ⟨_, h⟩⟩ | ⟨_, h⟩ <;>
      simp only [decide_eq_true_eq] at h
    · exact Or.inl h
    · exact Or.inr (Or.inl h)
    · exact Or.inr (Or.inr h.1)
    · exact Or.inr (Or.inr h.1)
    · exact Or.inr (Or.inr h.1)
  · rw [hpe]
    exact pyMax_mem _ es e
  · intro x hx
    rw [hpe] at hx
    exact pyMax_le (fun y => y.stripText.length) es e x hx
  · simp only [cleanFromDoc, mainContentRaw, hpe]

set_option maxRecDepth 4000 in
/-- C6 counterexample: on a page with a short `article` (120 chars) and
a long `body` (300 chars), the pipeline's extractor returns the article
text (body is not a candidate and no length filter applies), while the
spec's described algorithm (`specExtract`: body as last-resort
candidate, <100-char candidates filtered, longest wins) returns the
body text — the claim does not hold of the extractor the pipeline
uses. -/
theorem c6_counterexample :
    cleanFromDoc ⟨[⟨"article".data, [], List.replicate 120 'x', List.replicate 120 'x'⟩,
                   ⟨"body".data, [], List.replicate 300 'y', List.replicate 300 'y'⟩],
                  List.replicate 300 'y'⟩ ≠
      specExtract ⟨[⟨"article".data, [], List.replicate 120 'x', List.replicate 120 'x'⟩,
                    ⟨"body".data, [], List.replicate 300 'y', List.replicate 300 'y'⟩],
                   List.replicate 300 'y'⟩ := by
  decide

/-- C6 witness: a document with a single `article` candidate. -/
theorem c6_witness :
    pyMax (fun x => x.stripText.length)
      ⟨"article".data, [], "abc".data, "abc".data⟩ [] ∈
      potential_content_elements
        ⟨[⟨"article".data, [], "abc".data, "abc".data⟩], []⟩ :=
  (c6_extractor ⟨[⟨"article".data, [], "abc".data, "abc".data⟩], []⟩
    ⟨"article".data, [], "abc".data, "abc".data⟩ [] (by decide)).2.1

/-! ## C7: truncation marker at the 10000-character boundary -/

theorem squashWsF_no_ws :
    ∀ (f : Nat) (s : Str), (∀ c ∈ s, c.isWhitespace = false) →
      squashWsF f s = s := by
  intro f
  induction f with
  | zero => intro s _; rfl
  | succ f ih =>
    intro s hn
    cases s with
    | nil => rfl
    | cons c t =>
      simp only [squashWsF]
      rw [if_neg (by simp [hn c (List.mem_cons_self c t)])]
      rw [ih t (fun x hx => hn x (List.mem_cons_of_mem _ hx))]

theorem stripWs_no_ws (s : Str) (hn : ∀ c ∈ s, c.isWhitespace = false) :
    stripWs s = s := by
  unfold stripWs
  have h1 : s.dropWhile Char.isWhitespace = s := by
    cases s with
    | nil => rfl
    | cons c t =>
      rw [List.dropWhile_cons, if_neg (by simp [hn c (List.mem_cons_self c t)])]
  rw [h1]
  have h2 : s.reverse.dropWhile Char.isWhitespace = s.reverse := by
    cases hrev : s.reverse with
    | nil => rfl
    | cons c t =>
      have hc : c ∈ s := by
        rw [← List.mem_reverse, hrev]
        exact List.mem_cons_self _ _
      rw [List.dropWhile_cons, if_neg (by simp [hn c hc])]
  rw [h2, List.reverse_reverse]

theorem collapseWs_no_ws (s : Str) (hn : ∀ c ∈ s, c.isWhitespace = false) :
    collapseWs s = s := by
  unfold collapseWs squashWs
  rw [squashWsF_no_ws s.length s hn]
  exact stripWs_no_ws s hn

/-- C7 (code bug): for a page whose cleaned text is exactly 10000
non-whitespace characters, the pipeline's extractor
(`_clean_html_content`, search.py) APPENDS the truncation marker even
though nothing was truncated (its test is `len(main_content) ==
max_content_length` after slicing), while summarizer.py's `_clean_html`
— which compares against the pre-slice length — correctly leaves the
text alone. The claim (and the code's own comment 「如果內容被截斷，添加指示」)
describe the summarizer behaviour; search.py's boundary test is the
bug. -/
theorem c7_truncation_marker :
    cleanFromDoc ⟨[⟨"article".data, [],
        List.replicate 10000 'a', List.replicate 10000 'a'⟩], []⟩ =
      List.replicate 10000 'a' ++ truncMarker ∧
    limitContentSummarizer (List.replicate 10000 'a') = List.replicate 10000 'a' := by
  have hnws : ∀ c ∈ List.replicate 10000 'a', c.isWhitespace = false := by
    intro c hc
    rw [List.eq_of_mem_replicate hc]
    decide
  have hcol : collapseWs (List.replicate 10000 'a') = List.replicate 10000 'a' :=
    collapseWs_no_ws _ hnws
  have hne : List.replicate 10000 'a' ≠ ([] : Str) := by
    intro h
    have := congrArg List.length h
    simp only [List.length_replicate, List.length_nil] at this
    omega
  have htake : (List.replicate 10000 'a').take 10000 = List.replicate 10000 'a' :=
    List.take_of_length_le (by rw [List.length_replicate])
  constructor
  · have hpe : potential_content_elements ⟨[⟨"article".data, [],
        List.replicate 10000 'a', List.replicate 10000 'a'⟩], []⟩ =
        [⟨"article".data, [], List.replicate 10000 'a', List.replicate 10000 'a'⟩] := rfl
    have hmc : mainContentRaw ⟨[⟨"article".data, [],
        List.replicate 10000 'a', List.replicate 10000 'a'⟩], []⟩ =
        List.replicate 10000 'a' := by
      simp only [mainContentRaw, hpe]
      rfl
    simp only [cleanFromDoc, hmc]
    rw [if_pos hne]
    simp only [limitContent, hcol, htake]
    rw [if_pos (by rw [List.length_replicate])]
  · simp only [limitContentSummarizer, hcol, htake]
    rw [if_neg (by omega)]

/-! ## C8: extractor totality and sentinels -/

/-- C8 (amended): `_clean_html_content` is total (a Lean function; every
internal failure mode is caught): a parse failure yields the fixed
processing-error sentinel `內容處理錯誤`; a page from which no text at all
is extracted yields the fixed unavailable-content sentinel
`無法從此頁面提取有意義的內容`; BUT a page whose extracted text is nonempty
yet whitespace-only (which happens exactly when the paragraph fallback
joins two or more empty paragraphs) yields the EMPTY string, not a
sentinel — and the two sentinels are distinct strings. -/
theorem c8_sentinels (parse : Str → Option Doc) (html : Str) :
    (parse html = none → clean_html_content parse html = errorSentinel) ∧
    (∀ doc, parse html = some doc → mainContentRaw doc = [] →
      clean_html_content parse html = unavailSentinel) ∧
    (∀ doc, parse html = some doc → mainContentRaw doc ≠ [] →
      collapseWs (mainContentRaw doc) = [] →
      clean_html_content parse html = []) := by
  refine ⟨?_, ?_, ?_⟩
  · intro h
    simp [clean_html_content, h]
  · intro doc h hmc
    simp only [clean_html_content, h, cleanFromDoc]
    rw [if_neg (by simp [hmc])]
  · intro doc h hne hcol
    simp only [clean_html_content, h, cleanFromDoc]
    rw [if_pos hne]
    simp only [limitContent, hcol, List.take_nil]
    rw [if_neg (by simp)]

/-- C8 counterexample: markup parsed into two empty paragraphs (e.g.
`<p></p><p></p>`) makes the extractor return the EMPTY string — the
paragraph join `' '.join` produces the truthy string `" "`, which
collapses to nothing — so "no meaningful text" does NOT always yield
the unavailable-content sentinel. -/
theorem c8_counterexample :
    clean_html_content
        (fun _ => some ⟨[⟨"p".data, [], [], []⟩, ⟨"p".data, [], [], []⟩], []⟩)
        ("<p></p><p></p>".data) = [] ∧
    ([] : Str) ≠ unavailSentinel ∧ ([] : Str) ≠ errorSentinel := by
  refine ⟨by decide, by decide, by decide⟩

/-- C8 witness: parse failure yields the processing-error sentinel. -/
theorem c8_witness :
    clean_html_content (fun _ => none) ("<".data) = errorSentinel :=
  (c8_sentinels (fun _ => none) ("<".data)).1 rfl

/-! ## C9: empty results and the no_results response -/

/-- C9: `search` returns the empty list (not a failure) when the HTTP
call errors (`apiResp = none`), when the response has no `"items"` key
(`some none`), and when the item list is empty; and whenever the search
result list is empty, `process_query` returns the `no_results` response
with `search_query` populated from the analysis and NO `raw_results`
field (`none`). -/
theorem c9_no_results (md5hex : Str → Str) (ext : Nat → Option Str)
    (fetch : Str → Option Str) (parse : Str → Option Doc)
    (analysis : Analysis) (narrative : Option Str)
    (sc ac : List (Str × Str)) (n : Nat) (uq : Str) :
    search md5hex ext fetch parse true none sc n = ([], sc, n) ∧
    search md5hex ext fetch parse true (some none) sc n = ([], sc, n) ∧
    search md5hex ext fetch parse true (some (some [])) sc n = ([], sc, n) ∧
    (∀ apiResp, (search md5hex ext fetch parse true apiResp sc n).1 = [] →
      process_query md5hex ext fetch parse analysis apiResp narrative sc ac n uq =
        { rtype := "no_results".data, query := uq,
          search_query := analysis.search_query,
          answer := ("很抱歉，我找不到關於「".data) ++ analysis.search_query ++
            ("」的相關資訊。請嘗試使用其他關鍵字或更明確的描述。".data),
          used_tools := ["search".data], raw_results := none }) := by
  refine ⟨rfl, rfl, rfl, ?_⟩
  intro apiResp h
  unfold process_query
  rw [if_pos h]

/-- C9 witness: a failing provider call produces the `no_results`
response. -/
theorem c9_witness :
    process_query (fun _ => []) (fun _ => none) (fun _ => none) (fun _ => none)
      ⟨"q".data, 5⟩ none none [] [] 0 ("uq".data) =
      { rtype := "no_results".data, query := "uq".data, search_query := "q".data,
        answer := ("很抱歉，我找不到關於「".data) ++ ("q".data) ++
          ("」的相關資訊。請嘗試使用其他關鍵字或更明確的描述。".data),
        used_tools := ["search".data], raw_results := none } :=
  (c9_no_results (fun _ => []) (fun _ => none) (fun _ => none) (fun _ => none)
    ⟨"q".data, 5⟩ none [] [] 0 ("uq".data)).2.2.2 none rfl

/-! ## C10: candidate (im)mutability during report synthesis -/

theorem prepassOne_frame (md5hex : Str → Str) (ext : Nat → Option Str)
    (ac : List (Str × Str)) (n : Nat) (c : Cand) :
    (prepassOne md5hex ext ac n c).1.title = c.title ∧
    (prepassOne md5hex ext ac n c).1.link = c.link ∧
    (prepassOne md5hex ext ac n c).1.snippet = c.snippet ∧
    (prepassOne md5hex ext ac n c).1.source = c.source ∧
    (prepassOne md5hex ext ac n c).1.published_date = c.published_date ∧
    (prepassOne md5hex ext ac n c).1.full_content = c.full_content := by
  unfold prepassOne
  by_cases h : truthyOptStr c.short_link = true
  · rw [if_pos h]
    exact ⟨rfl, rfl, rfl, rfl, rfl, rfl⟩
  · rw [if_neg h]
    exact ⟨rfl, rfl, rfl, rfl, rfl, rfl⟩

theorem prepassOne_id (md5hex : Str → Str) (ext : Nat → Option Str)
    (ac : List (Str × Str)) (n : Nat) (c : Cand) (s : Str)
    (hs : c.short_link = some s) (hne : s ≠ []) :
    prepassOne md5hex ext ac n c = (c, s, ac, n) := by
  unfold prepassOne
  rw [hs]
  rw [if_pos (by
    simp only [truthyOptStr, Bool.not_eq_true']
    cases hss : s with
    | nil => exact absurd hss hne
    | cons a t => simp)]
  rfl

theorem prepass_getElem (md5hex : Str → Str) (ext : Nat → Option Str) :
    ∀ (cs : List Cand) (um ac : List (Str × Str)) (n : Nat) (i : Nat) (c : Cand),
      cs[i]? = some c → ∃ c', (prepass md5hex ext um ac n cs).1[i]? = some c' ∧
        c'.title = c.title ∧ c'.link = c.link ∧ c'.snippet = c.snippet ∧
        c'.source = c.source ∧ c'.published_date = c.published_date ∧
        c'.full_content = c.full_content := by
  intro cs
  induction cs with
  | nil =>
    intro um ac n i c hc
    rw [List.getElem?_nil] at hc
    exact Option.noConfusion hc
  | cons d ds ih =>
    intro um ac n i c hc
    cases i with
    | zero =>
      rw [List.getElem?_cons_zero, Option.some.injEq] at hc
      subst hc
      refine ⟨(prepassOne md5hex ext ac n d).1, ?_, prepassOne_frame md5hex ext ac n d⟩
      simp only [prepass, List.getElem?_cons_zero]
    | succ j =>
      rw [List.getElem?_cons_succ] at hc
      rcases ih (dictInsert um d.link (prepassOne md5hex ext ac n d).2.1)
        (prepassOne md5hex ext ac n d).2.2.1 (prepassOne md5hex ext ac n d).2.2.2
        j c hc with ⟨c', hc', hprops⟩
      refine ⟨c', ?_, hprops⟩
      simp only [prepass, List.getElem?_cons_succ]
      exact hc'

theorem prepass_id (md5hex : Str → Str) (ext : Nat → Option Str) :
    ∀ (cs : List Cand), (∀ c ∈ cs, ∃ s, c.short_link = some s ∧ s ≠ []) →
      ∀ (um ac : List (Str × Str)) (n : Nat),
        (prepass md5hex ext um ac n cs).1 = cs := by
  intro cs
  induction cs with
  | nil => intro _ um ac n; rfl
  | cons d ds ih =>
    intro h um ac n
    rcases h d (List.mem_cons_self d ds) with ⟨s, hs, hne⟩
    have hone := prepassOne_id md5hex ext ac n d s hs hne
    simp only [prepass, hone]
    rw [ih (fun c hc => h c (List.mem_cons_of_mem _ hc))]

theorem generate_report_cands (md5hex : Str → Str) (ext : Nat → Option Str)
    (ac : List (Str × Str)) (n : Nat) (cs : List Cand) (narrative : Option Str) :
    (generate_comprehensive_report md5hex ext ac n cs narrative).2.1 =
      (prepass md5hex ext [] ac n cs).1 := by
  cases narrative with
  | some rep => rfl
  | none => rfl

/-- C10 (amended): report synthesis never changes a candidate's
`title`, `link`, `snippet`, `source`, `published_date` or
`full_content` (positions preserved), and when every candidate already
carries a truthy (non-`None`, nonempty) `short_link` — as all
pipeline-produced candidates do — the list is returned completely
unchanged. But a candidate arriving WITHOUT a truthy `short_link` is
mutated in place: its `short_link` is set to a freshly resolved short
URL (agent.py line 169), so the claim's unconditional immutability is
false. -/
theorem c10_frame (md5hex : Str → Str) (ext : Nat → Option Str)
    (ac : List (Str × Str)) (n : Nat) (cs : List Cand) (narrative : Option Str) :
    (∀ (i : Nat) (c : Cand), cs[i]? = some c → ∃ c' : Cand,
      (generate_comprehensive_report md5hex ext ac n cs narrative).2.1[i]? = some c' ∧
      c'.title = c.title ∧ c'.link = c.link ∧ c'.snippet = c.snippet ∧
      c'.source = c.source ∧ c'.published_date = c.published_date ∧
      c'.full_content = c.full_content) ∧
    ((∀ c ∈ cs, ∃ s, c.short_link = some s ∧ s ≠ []) →
      (generate_comprehensive_report md5hex ext ac n cs narrative).2.1 = cs) := by
  rw [generate_report_cands]
  constructor
  · intro i c hc
    exact prepass_getElem md5hex ext cs [] ac n i c hc
  · intro h
    exact prepass_id md5hex ext cs h [] ac n

/-- C10 counterexample: a candidate with `short_link = None` is mutated
by the synthesis pre-pass — the list after
`_generate_comprehensive_report` differs from the list passed in. -/
theorem c10_counterexample :
    (generate_comprehensive_report (fun _ => []) (fun _ => some ("https://t.co/x".data)) [] 0
      [⟨"t".data, "https://a.com".data, none, [], "google".data, [], none⟩]
      (some ("ok".data))).2.1 ≠
      [⟨"t".data, "https://a.com".data, none, [], "google".data, [], none⟩] := by
  decide

/-- C10 witness: a candidate with a truthy short link is unchanged. -/
theorem c10_witness :
    (generate_comprehensive_report (fun _ => []) (fun _ => some ("https://t.co/x".data)) [] 0
      [⟨"t".data, "https://a.com".data, some ("s".data), [], "google".data, [], none⟩]
      (some ("ok".data))).2.1 =
      [⟨"t".data, "https://a.com".data, some ("s".data), [], "google".data, [], none⟩] :=
  (c10_frame (fun _ => []) (fun _ => some ("https://t.co/x".data)) [] 0
    [⟨"t".data, "https://a.com".data, some ("s".data), [], "google".data, [], none⟩]
    (some ("ok".data))).2 (by
      intro c hc
      rw [List.mem_singleton] at hc
      subst hc
      exact ⟨"s".data, rfl, by decide⟩)
